import Mathlib

/-!
Verification of the inventory-constrained mosaic quantizer
(`src/main.rs` of Block-Mosaic-Creator).

The embedding below translates the core of `main.rs`:
`calculate_closest_color`, the quantization loop inside `model`
(grid construction, per-cell nearest-available assignment with stock
decrement) and the final row-major sort.

The source computes the luma-weighted distance in `f32` (IEEE-754
binary32, round to nearest, ties to even — Rust performs no contraction).
Here that computation is embedded bit-exactly: every `f32` value arising
in the distance pipeline is a dyadic rational with denominator at most
`2^54`, and is represented by the integer `value * 2^54`.  `froundS`
rounds this representation to a 24-bit significand exactly as binary32
does (no overflow, underflow or subnormal arises for `u8` channel
inputs), `fmulS` and `faddS` are the correspondingly rounded product and
sum, and the weight constants are the exact binary32 values of the
literals `0.3`, `0.59`, `0.11`.  Scaling by `2^54` is a strictly
monotone change of units, so the source's `f32` comparisons are exactly
the integer comparisons used here; the sentinel `f32::MAX` is scaled by
the same factor.  The exact-real reading of the distance formula, as the
specification writes it, is kept separately as `specDist`; `f32`
rounding makes the two disagree on which palette entry is nearest (see
the correction of claims C2 and C3).

Machine integers (`u8`, `u64`, `usize`) are modelled as `Nat`; no
operation in the modelled code overflows (`u8` values are only read, the
`u64` count is only decremented when positive, which is itself a verified
fact below).
-/

set_option maxRecDepth 100000

namespace BlockMosaic

/-- `const X_SIZE: u64 = 48;` -/
def X_SIZE : Nat := 48

/-- `const Y_SIZE: u64 = 48;` -/
def Y_SIZE : Nat := 48

/-- `usize::MAX`, the initial value of `closest_index`. -/
def usizeMAX : Nat := 18446744073709551615

/-- `f32::MAX` (exact value `2^128 - 2^104`), the initial value of
`closest_dist`, in the scaled representation of this embedding (times
`2^54`, like every distance value; see the header comment). -/
def f32MAXs : ℤ := (2 ^ 128 - 2 ^ 104) * 2 ^ 54

/-- `struct Color { r,g,b: u8, x,y: u64 }` — both a sampled grid cell and an
assignment produced by the quantization loop. -/
structure Color where
  r : Nat
  g : Nat
  b : Nat
  x : Nat
  y : Nat
deriving DecidableEq, Repr

/-- `struct ColorConfig { name: String, r,g,b: u8, count: u64 }` — one palette
inventory entry. -/
structure ColorConfig where
  name : String
  r : Nat
  g : Nat
  b : Nat
  count : Nat
deriving DecidableEq, Repr

/-- `ColorConfig::decrement` (lines 35-39 of `main.rs`): `self.count -= 1`,
leaving every other field unchanged.  In the source an underflowing
subtraction is a fatal runtime error; `quantize` below reaches this
operation only behind its explicit `count == 0` check, which models that
fatal branch. -/
def ColorConfig.decrement (cfg : ColorConfig) : ColorConfig :=
  ⟨cfg.name, cfg.r, cfg.g, cfg.b, cfg.count - 1⟩

instance {ε α : Type} [DecidableEq ε] [DecidableEq α] : DecidableEq (Except ε α)
  | Except.error a, Except.error b =>
      if h : a = b then Decidable.isTrue (congrArg Except.error h)
      else Decidable.isFalse (fun hc => h (by cases hc; rfl))
  | Except.error _, Except.ok _ => Decidable.isFalse (fun hc => Except.noConfusion hc)
  | Except.ok _, Except.error _ => Decidable.isFalse (fun hc => Except.noConfusion hc)
  | Except.ok a, Except.ok b =>
      if h : a = b then Decidable.isTrue (congrArg Except.ok h)
      else Decidable.isFalse (fun hc => h (by cases hc; rfl))

/-- `u8` values are in `0..=255`; holds for every color sampled from an image. -/
def ValidColor (c : Color) : Prop :=
  c.r ≤ 255 ∧ c.g ≤ 255 ∧ c.b ≤ 255

instance (c : Color) : Decidable (ValidColor c) := by
  unfold ValidColor; infer_instance

/-- `u8` channel bounds for a palette entry, as guaranteed by the `u8` fields
of the deserialized `ColorConfig`. -/
def ValidCfg (cfg : ColorConfig) : Prop :=
  cfg.r ≤ 255 ∧ cfg.g ≤ 255 ∧ cfg.b ≤ 255

instance (cfg : ColorConfig) : Decidable (ValidCfg cfg) := by
  unfold ValidCfg; infer_instance

/-- Number of binary digits of `n` (fuelled; exact whenever `n < 2 ^ fuel`,
which covers every value arising in the distance pipeline). -/
def bitlen : Nat → Nat → Nat
  | 0, _ => 0
  | fuel + 1, n => if n = 0 then 0 else bitlen fuel (n / 2) + 1

/-- IEEE-754 binary32 rounding (to nearest, ties to even) on the scaled
representation: `v` stands for the real `v / 2^54`; the result is the
nearest value with a 24-bit significand, in the same representation.
Inputs with at most 24 significant bits are exact; otherwise the low
`bitlen - 24` bits are rounded away, ties going to the even significand. -/
def froundS (v : ℤ) : ℤ :=
  let n := v.natAbs
  let L := bitlen 128 n
  if L ≤ 24 then v
  else
    let sh := L - 24
    let q := n / 2 ^ sh
    let r := n % 2 ^ sh
    let q' := if 2 ^ (sh - 1) < r ∨ (r = 2 ^ (sh - 1) ∧ q % 2 = 1) then q + 1
      else q
    if v < 0 then -((q' * 2 ^ sh : Nat) : ℤ) else ((q' * 2 ^ sh : Nat) : ℤ)

/-- `f32` multiplication on the scaled representation: the exact real
product is `(a * b) / 2^54` in the representation (this division is exact
for every multiplication performed by the distance pipeline), then
rounded. -/
def fmulS (a b : ℤ) : ℤ := froundS (a * b / 2 ^ 54)

/-- `f32` addition on the scaled representation: the exact sum, rounded. -/
def faddS (a b : ℤ) : ℤ := froundS (a + b)

/-- The exact binary32 value of the literal `0.3`
(`10066330 * 2^(-25)`), scaled by `2^54`. -/
def W3s : ℤ := 10066330 * 2 ^ 29

/-- The exact binary32 value of the literal `0.59`
(`9898557 * 2^(-24)`), scaled by `2^54`. -/
def W59s : ℤ := 9898557 * 2 ^ 30

/-- The exact binary32 value of the literal `0.11`
(`14763950 * 2^(-27)`), scaled by `2^54`. -/
def W11s : ℤ := 14763950 * 2 ^ 27

/-- The luma-weighted squared distance computed in the body of the loop of
`calculate_closest_color` (lines 167-174 of `main.rs`), embedded
bit-exactly: `r_dist = (cfg.r as f32 - orig.r as f32) * 0.3` and so on
(the `u8`-to-`f32` conversions and the subtraction are exact), each
squared by self-multiplication, then summed left to right, every `f32`
operation rounded as binary32 rounds.  The value is the source's `f32`
result scaled by `2^54`, so comparisons of `dist` values are exactly the
source's `f32` comparisons. -/
def dist (cfg : ColorConfig) (orig : Color) : ℤ :=
  let r_dist := fmulS (((cfg.r : ℤ) - (orig.r : ℤ)) * 2 ^ 54) W3s
  let g_dist := fmulS (((cfg.g : ℤ) - (orig.g : ℤ)) * 2 ^ 54) W59s
  let b_dist := fmulS (((cfg.b : ℤ) - (orig.b : ℤ)) * 2 ^ 54) W11s
  faddS (faddS (fmulS r_dist r_dist) (fmulS g_dist g_dist))
    (fmulS b_dist b_dist)

/-- The luma-weighted squared distance exactly as the specification writes
it: `d = (0.3·Δr)² + (0.59·Δg)² + (0.11·Δb)²` with
`Δ = entry.channel - sample.channel`, read in exact real arithmetic
(unscaled rational units).  This is the claim-side formula; the program
computes `dist` instead, and `f32` rounding makes their comparisons
disagree on some inputs. -/
def specDist (cfg : ColorConfig) (orig : Color) : ℚ :=
  (0.3 * ((cfg.r : ℚ) - (orig.r : ℚ)))^2
    + (0.59 * ((cfg.g : ℚ) - (orig.g : ℚ)))^2
    + (0.11 * ((cfg.b : ℚ) - (orig.b : ℚ)))^2

/-- The scan loop of `calculate_closest_color` (lines 162-181 of `main.rs`).
State: `closest_dist`, `closest_index`, `count`, `has_available_color`;
entries with `count == 0` are skipped (`continue`), an eligible entry
updates the minimum only on strict `dist < closest_dist`.  Returns the
final `(closest_dist, closest_index, has_available_color)`. -/
def cccLoop (orig : Color) :
    List ColorConfig → ℤ → Nat → Nat → Bool → ℤ × Nat × Bool
  | [], closest_dist, closest_index, _count, has =>
      (closest_dist, closest_index, has)
  | cfg :: rest, closest_dist, closest_index, count, has =>
      if cfg.count = 0 then
        cccLoop orig rest closest_dist closest_index (count + 1) has
      else if dist cfg orig < closest_dist then
        cccLoop orig rest (dist cfg orig) count (count + 1) true
      else
        cccLoop orig rest closest_dist closest_index (count + 1) true

/-- `fn calculate_closest_color(color_configs, original_color) -> usize`
(lines 157-186 of `main.rs`).  The source `panic!`s when
`!has_available_color || closest_dist == f32::MAX`; the panic is modelled
as `none`. -/
def calculate_closest_color (cfgs : List ColorConfig) (orig : Color) :
    Option Nat :=
  if (cccLoop orig cfgs f32MAXs usizeMAX 0 false).2.2 = false ∨
      (cccLoop orig cfgs f32MAXs usizeMAX 0 false).1 = f32MAXs then none
  else some (cccLoop orig cfgs f32MAXs usizeMAX 0 false).2.1

/-- The fatal outcomes of the quantization loop in `model`:
`exhausted` models the `panic!("Invalid configuration of colors...")` of
`calculate_closest_color`; `oob` models the `.expect` on `get_mut`;
`underflow` models the `u64` underflow panic of `ColorConfig::decrement`
(`self.count -= 1` with `count == 0`). -/
inductive QErr where
  | exhausted
  | oob
  | underflow
deriving DecidableEq, Repr

/-- The per-cell quantization loop of `model` (lines 131-148 of `main.rs`):
for each cell in traversal order, find the nearest available palette entry,
decrement its stock (`ColorConfig::decrement`, lines 35-39), and record an
assignment carrying the entry's color and the cell's coordinates.  Also
returns the final inventory. -/
def quantize : List Color → List ColorConfig →
    Except QErr (List Color × List ColorConfig)
  | [], cfgs => Except.ok ([], cfgs)
  | c :: rest, cfgs =>
    match calculate_closest_color cfgs c with
    | none => Except.error QErr.exhausted
    | some i =>
      match cfgs[i]? with
      | none => Except.error QErr.oob
      | some cfg =>
        if cfg.count = 0 then Except.error QErr.underflow
        else
          match quantize rest (cfgs.set i cfg.decrement) with
          | Except.ok (outs, final) =>
              Except.ok ({ r := cfg.r, g := cfg.g, b := cfg.b,
                           x := c.x, y := c.y } :: outs, final)
          | Except.error e => Except.error e

/-- The comparator of the final sort (lines 149-152 of `main.rs`):
compare `y`, then `x` on equality. -/
def cmpColor (a b : Color) : Ordering :=
  match compare a.y b.y with
  | Ordering.eq => compare a.x b.x
  | other => other

/-- `a` sorts no later than `b` under `cmpColor`. -/
def colorLe (a b : Color) : Bool :=
  !(cmpColor a b == Ordering.gt)

/-- Insertion into a sorted list, keeping an inserted element before equal
keys (the stable-sort placement used by Rust's `sort_by`). -/
def insertSorted (a : Color) : List Color → List Color
  | [] => [a]
  | b :: rest => if colorLe a b then a :: b :: rest else b :: insertSorted a rest

/-- `colors.sort_by(y then x)` (lines 149-152 of `main.rs`), modelled as the
stable insertion sort with the source comparator. -/
def sortColors : List Color → List Color
  | [] => []
  | a :: rest => insertSorted a (sortColors rest)

/-- The grid construction of `model` (lines 116-128 of `main.rs`): for `y`
then `x` in row-major order, sample pixel `(x, Y_SIZE - y - 1)` of the
resized image (`src`, the external resampled image, is an arbitrary
function from coordinates to `u8` channel triples). -/
def gridCells (src : Nat → Nat → Nat × Nat × Nat) : List Color :=
  (List.range Y_SIZE).flatMap fun y =>
    (List.range X_SIZE).map fun x =>
      { r := (src x (Y_SIZE - y - 1)).1
        g := (src x (Y_SIZE - y - 1)).2.1
        b := (src x (Y_SIZE - y - 1)).2.2
        x := x, y := y }

/-- Total remaining stock of an inventory. -/
def totalStock (cfgs : List ColorConfig) : Nat :=
  (cfgs.map fun cfg => cfg.count).sum

/-- The coordinate pair of a cell or assignment. -/
def coords (c : Color) : Nat × Nat := (c.x, c.y)

/-- Lines 131-152 of `model` applied to an already-shuffled cell list:
quantize, then sort the assignments row-major.  The shuffle's random draw
(line 129, `colors.shuffle(&mut thread_rng())`) is not a function of the
program's inputs; `cells` stands for its result. -/
def modelCore (cells : List Color) (cfgs : List ColorConfig) :
    Except QErr (List Color × List ColorConfig) :=
  match quantize cells cfgs with
  | Except.ok (outs, final) => Except.ok (sortColors outs, final)
  | Except.error e => Except.error e

/-- The arithmetic reading of the sort comparator: `a` is at or before `b`
in row-major order (`y` ascending, then `x` ascending). -/
def colorLeP (a b : Color) : Prop :=
  a.y < b.y ∨ (a.y = b.y ∧ a.x ≤ b.x)

/-- Row-major order on bare coordinate pairs `(x, y)`. -/
def coordLe (p q : Nat × Nat) : Prop :=
  p.2 < q.2 ∨ (p.2 = q.2 ∧ p.1 ≤ q.1)

instance : IsAntisymm (Nat × Nat) coordLe where
  antisymm := by
    intro p q h1 h2
    cases p with
    | mk a b =>
      cases q with
      | mk c d =>
        simp only [coordLe] at h1 h2
        simp only [Prod.mk.injEq]
        omega

/-- The coordinates `(x, y)` of the full grid in row-major order: entry `i`
is `(i % X_SIZE, i / X_SIZE)`. -/
def rowMajorCoords : List (Nat × Nat) :=
  (List.range (X_SIZE * Y_SIZE)).map fun i => (i % X_SIZE, i / X_SIZE)

/-- Modelled from the spec: `src/main.rs` contains no usage-report code;
§4.5 (UsageReporter) and §6 of the specification describe `summarize`.
Grouping is by palette entry identity: §3 allows display names that are
not unique, and §4.5 prescribes disambiguation by identity when they
collide, so each list entry is tracked independently, keyed by its
position.  `chosen` lists, for each assigned cell, the position of the
palette entry it used; the mapping pairs each entry's display name with
that entry's own usage count. -/
def usageMapping (cfgs : List ColorConfig) (chosen : List Nat) :
    List (String × Nat) :=
  cfgs.enum.map fun p => (p.2.name, chosen.count p.1)

/-- Modelled from the spec: the grand total of the usage mapping. -/
def usageTotal (cfgs : List ColorConfig) (chosen : List Nat) : Nat :=
  ((usageMapping cfgs chosen).map fun p => p.2).sum

/-- Modelled from the spec (§6): the textual report — one line
`"<name> - <count> pieces"` per color actually used (zero-usage entries
filtered out), then `"Total Pieces: <total>"`. -/
def reportLines (cfgs : List ColorConfig) (chosen : List Nat) :
    List String :=
  (((usageMapping cfgs chosen).filter fun p => p.2 != 0).map
    fun p => p.1 ++ " - " ++ toString p.2 ++ " pieces")
  ++ ["Total Pieces: " ++ toString (usageTotal cfgs chosen)]

/-! ### Lemmas about the nearest-available scan -/

@[simp] theorem decrement_count (cfg : ColorConfig) :
    cfg.decrement.count = cfg.count - 1 := rfl

@[simp] theorem decrement_name (cfg : ColorConfig) :
    cfg.decrement.name = cfg.name := rfl

@[simp] theorem decrement_r (cfg : ColorConfig) : cfg.decrement.r = cfg.r := rfl

@[simp] theorem decrement_g (cfg : ColorConfig) : cfg.decrement.g = cfg.g := rfl

@[simp] theorem decrement_b (cfg : ColorConfig) : cfg.decrement.b = cfg.b := rfl

/-- The running minimum never increases. -/
theorem cccLoop_fst_le (orig : Color) :
    ∀ (cfgs : List ColorConfig) (cd : ℤ) (ci cnt : Nat) (has : Bool),
      (cccLoop orig cfgs cd ci cnt has).1 ≤ cd := by
  intro cfgs
  induction cfgs with
  | nil => intro cd ci cnt has; simp [cccLoop]
  | cons cfg rest ih =>
    intro cd ci cnt has
    by_cases h0 : cfg.count = 0
    · simpa [cccLoop, h0] using ih cd ci (cnt + 1) has
    · by_cases hlt : dist cfg orig < cd
      · simpa [cccLoop, h0, hlt] using
          le_of_lt (lt_of_le_of_lt (ih (dist cfg orig) cnt (cnt + 1) true) hlt)
      · simpa [cccLoop, h0, hlt] using ih cd ci (cnt + 1) true

/-- Either no update ever fires (state returned unchanged), or the final
minimum is strictly below the initial one and the final index points at an
eligible entry realizing the final minimum. -/
theorem cccLoop_main (orig : Color) :
    ∀ (cfgs : List ColorConfig) (cd : ℤ) (ci cnt : Nat) (has : Bool),
      ((cccLoop orig cfgs cd ci cnt has).1 = cd ∧
        (cccLoop orig cfgs cd ci cnt has).2.1 = ci) ∨
      ((cccLoop orig cfgs cd ci cnt has).1 < cd ∧
        ∃ k, ∃ hk : k < cfgs.length,
          (cccLoop orig cfgs cd ci cnt has).2.1 = cnt + k ∧
          (cfgs.get ⟨k, hk⟩).count ≠ 0 ∧
          (cccLoop orig cfgs cd ci cnt has).1 = dist (cfgs.get ⟨k, hk⟩) orig) := by
  intro cfgs
  induction cfgs with
  | nil => intro cd ci cnt has; left; simp [cccLoop]
  | cons cfg rest ih =>
    intro cd ci cnt has
    by_cases h0 : cfg.count = 0
    · rcases ih cd ci (cnt + 1) has with h | ⟨hlt, k, hk, hidx, helig, hdist⟩
      · left; simpa [cccLoop, h0] using h
      · right
        refine ⟨by simpa [cccLoop, h0] using hlt, k + 1, by simpa using hk, ?_, ?_, ?_⟩
        · simpa [cccLoop, h0, Nat.add_assoc, Nat.add_comm 1 k] using hidx
        · simpa using helig
        · simpa [cccLoop, h0] using hdist
    · by_cases hlt : dist cfg orig < cd
      · rcases ih (dist cfg orig) cnt (cnt + 1) true with ⟨heq, hidx⟩ | ⟨hlt2, k, hk, hidx, helig, hdist⟩
        · right
          refine ⟨by simpa [cccLoop, h0, hlt] using lt_of_le_of_lt (le_of_eq heq) hlt,
            0, by simp, ?_, ?_, ?_⟩
          · simpa [cccLoop, h0, hlt] using hidx
          · simpa using h0
          · simpa [cccLoop, h0, hlt] using heq
        · right
          refine ⟨by simpa [cccLoop, h0, hlt] using lt_trans hlt2 hlt,
            k + 1, by simpa using hk, ?_, ?_, ?_⟩
          · simpa [cccLoop, h0, hlt, Nat.add_assoc, Nat.add_comm 1 k] using hidx
          · simpa using helig
          · simpa [cccLoop, h0, hlt] using hdist
      · rcases ih cd ci (cnt + 1) true with h | ⟨hlt2, k, hk, hidx, helig, hdist⟩
        · left; simpa [cccLoop, h0, hlt] using h
        · right
          refine ⟨by simpa [cccLoop, h0, hlt] using hlt2, k + 1, by simpa using hk, ?_, ?_, ?_⟩
          · simpa [cccLoop, h0, hlt, Nat.add_assoc, Nat.add_comm 1 k] using hidx
          · simpa using helig
          · simpa [cccLoop, h0, hlt] using hdist

/-- The final minimum is below the distance of every eligible entry. -/
theorem cccLoop_min (orig : Color) :
    ∀ (cfgs : List ColorConfig) (cd : ℤ) (ci cnt : Nat) (has : Bool)
      (k : Nat) (hk : k < cfgs.length),
      (cfgs.get ⟨k, hk⟩).count ≠ 0 →
      (cccLoop orig cfgs cd ci cnt has).1 ≤ dist (cfgs.get ⟨k, hk⟩) orig := by
  intro cfgs
  induction cfgs with
  | nil => intro cd ci cnt has k hk; exact absurd hk (by simp)
  | cons cfg rest ih =>
    intro cd ci cnt has k hk helig
    by_cases h0 : cfg.count = 0
    · cases k with
      | zero => exact absurd (by simpa using h0) (by simpa using helig)
      | succ k =>
        simpa [cccLoop, h0] using
          ih cd ci (cnt + 1) has k (by simpa using hk) (by simpa using helig)
    · by_cases hlt : dist cfg orig < cd
      · cases k with
        | zero =>
          simpa [cccLoop, h0, hlt] using
            cccLoop_fst_le orig rest (dist cfg orig) cnt (cnt + 1) true
        | succ k =>
          simpa [cccLoop, h0, hlt] using
            ih (dist cfg orig) cnt (cnt + 1) true k (by simpa using hk) (by simpa using helig)
      · cases k with
        | zero =>
          have := cccLoop_fst_le orig rest cd ci (cnt + 1) true
          have hge : cd ≤ dist cfg orig := not_lt.mp hlt
          simpa [cccLoop, h0, hlt] using le_trans this hge
        | succ k =>
          simpa [cccLoop, h0, hlt] using
            ih cd ci (cnt + 1) true k (by simpa using hk) (by simpa using helig)

/-- The `has_available_color` flag records whether any eligible entry was seen. -/
theorem cccLoop_has (orig : Color) :
    ∀ (cfgs : List ColorConfig) (cd : ℤ) (ci cnt : Nat) (has : Bool),
      (cccLoop orig cfgs cd ci cnt has).2.2 =
        (has || cfgs.any fun cfg => !(cfg.count == 0)) := by
  intro cfgs
  induction cfgs with
  | nil => intro cd ci cnt has; simp [cccLoop]
  | cons cfg rest ih =>
    intro cd ci cnt has
    by_cases h0 : cfg.count = 0
    · simp [cccLoop, h0, ih]
    · by_cases hlt : dist cfg orig < cd
      · simp [cccLoop, h0, hlt, ih]
      · simp [cccLoop, h0, hlt, ih]

/-- If an eligible entry realizes the final (strictly improved) minimum, the
final index is at or before it: the scan keeps the first-seen minimum. -/
theorem cccLoop_first (orig : Color) :
    ∀ (cfgs : List ColorConfig) (cd : ℤ) (ci cnt : Nat) (has : Bool)
      (j : Nat) (hj : j < cfgs.length),
      (cfgs.get ⟨j, hj⟩).count ≠ 0 →
      dist (cfgs.get ⟨j, hj⟩) orig = (cccLoop orig cfgs cd ci cnt has).1 →
      (cccLoop orig cfgs cd ci cnt has).1 < cd →
      (cccLoop orig cfgs cd ci cnt has).2.1 ≤ cnt + j := by
  intro cfgs
  induction cfgs with
  | nil => intro cd ci cnt has j hj; exact absurd hj (by simp)
  | cons cfg rest ih =>
    intro cd ci cnt has j hj helig hdist hlt
    by_cases h0 : cfg.count = 0
    · cases j with
      | zero => exact absurd (by simpa using h0) (by simpa using helig)
      | succ j =>
        have := ih cd ci (cnt + 1) has j (by simpa using hj) (by simpa using helig)
          (by simpa [cccLoop, h0] using hdist) (by simpa [cccLoop, h0] using hlt)
        simpa [cccLoop, h0, Nat.add_assoc, Nat.add_comm 1 j] using this
    · by_cases hupd : dist cfg orig < cd
      · cases j with
        | zero =>
          rcases cccLoop_main orig rest (dist cfg orig) cnt (cnt + 1) true with
            ⟨_, hidx⟩ | ⟨hlt2, _, _, _, _, _⟩
          · simp only [cccLoop, if_neg h0, if_pos hupd]
            rw [hidx]; omega
          · exfalso
            have h1 : dist cfg orig = (cccLoop orig rest (dist cfg orig) cnt (cnt + 1) true).1 := by
              simpa [cccLoop, h0, hupd] using hdist
            omega
        | succ j =>
          by_cases hres : (cccLoop orig rest (dist cfg orig) cnt (cnt + 1) true).1 < dist cfg orig
          · have := ih (dist cfg orig) cnt (cnt + 1) true j (by simpa using hj)
              (by simpa using helig) (by simpa [cccLoop, h0, hupd] using hdist) hres
            simp only [cccLoop, if_neg h0, if_pos hupd]
            simp only [cccLoop, if_neg h0, if_pos hupd] at this ⊢
            omega
          · rcases cccLoop_main orig rest (dist cfg orig) cnt (cnt + 1) true with
              ⟨_, hidx⟩ | ⟨hlt2, _, _, _, _, _⟩
            · simp only [cccLoop, if_neg h0, if_pos hupd]
              rw [hidx]; omega
            · exact absurd hlt2 hres
      · cases j with
        | zero =>
          exfalso
          have hge : cd ≤ dist cfg orig := not_lt.mp hupd
          have hle := cccLoop_fst_le orig rest cd ci (cnt + 1) true
          have h1 : dist cfg orig = (cccLoop orig rest cd ci (cnt + 1) true).1 := by
            simpa [cccLoop, h0, hupd] using hdist
          have h2 : (cccLoop orig rest cd ci (cnt + 1) true).1 < cd := by
            simpa [cccLoop, h0, hupd] using hlt
          omega
        | succ j =>
          have := ih cd ci (cnt + 1) true j (by simpa using hj) (by simpa using helig)
            (by simpa [cccLoop, h0, hupd] using hdist) (by simpa [cccLoop, h0, hupd] using hlt)
          simpa [cccLoop, h0, hupd, Nat.add_assoc, Nat.add_comm 1 j] using this

/-- Unpack a successful query: the returned index is in range and eligible,
its distance is the final minimum, which strictly improved the sentinel. -/
theorem ccc_some (cfgs : List ColorConfig) (orig : Color) (i : Nat)
    (h : calculate_closest_color cfgs orig = some i) :
    ∃ hi : i < cfgs.length,
      (cfgs.get ⟨i, hi⟩).count ≠ 0 ∧
      dist (cfgs.get ⟨i, hi⟩) orig = (cccLoop orig cfgs f32MAXs usizeMAX 0 false).1 ∧
      (cccLoop orig cfgs f32MAXs usizeMAX 0 false).1 < f32MAXs ∧
      (cccLoop orig cfgs f32MAXs usizeMAX 0 false).2.1 = i := by
  unfold calculate_closest_color at h
  split at h
  · exact Option.noConfusion h
  · rename_i hcond
    push_neg at hcond
    injection h with hres
    rcases cccLoop_main orig cfgs f32MAXs usizeMAX 0 false with
      ⟨heq, _⟩ | ⟨hlt, k, hk, hidx, helig, hdist⟩
    · exact absurd heq hcond.2
    · have hik : i = k := by omega
      subst hik
      exact ⟨hk, helig, hdist.symm, hlt, hres⟩

/-- A returned index is in range. -/
theorem ccc_some_lt_length (cfgs : List ColorConfig) (orig : Color) (i : Nat)
    (h : calculate_closest_color cfgs orig = some i) : i < cfgs.length := by
  obtain ⟨hi, _⟩ := ccc_some cfgs orig i h
  exact hi

/-- A returned index always has positive remaining stock. -/
theorem ccc_some_elig (cfgs : List ColorConfig) (orig : Color) (i : Nat)
    (h : calculate_closest_color cfgs orig = some i) :
    ∃ hi : i < cfgs.length, (cfgs.get ⟨i, hi⟩).count ≠ 0 := by
  obtain ⟨hi, helig, _⟩ := ccc_some cfgs orig i h
  exact ⟨hi, helig⟩

/-- A returned index minimizes the distance among eligible entries. -/
theorem ccc_some_min (cfgs : List ColorConfig) (orig : Color) (i : Nat)
    (h : calculate_closest_color cfgs orig = some i)
    (hi : i < cfgs.length) (j : Nat) (hj : j < cfgs.length)
    (hjelig : (cfgs.get ⟨j, hj⟩).count ≠ 0) :
    dist (cfgs.get ⟨i, hi⟩) orig ≤ dist (cfgs.get ⟨j, hj⟩) orig := by
  obtain ⟨hi2, _, hdist, _, _⟩ := ccc_some cfgs orig i h
  rw [hdist]
  exact cccLoop_min orig cfgs f32MAXs usizeMAX 0 false j hj hjelig

/-- Ties keep the first-seen entry: every eligible entry at the winning
distance is at or after the returned index. -/
theorem ccc_some_first (cfgs : List ColorConfig) (orig : Color) (i : Nat)
    (h : calculate_closest_color cfgs orig = some i)
    (hi : i < cfgs.length) (j : Nat) (hj : j < cfgs.length)
    (hjelig : (cfgs.get ⟨j, hj⟩).count ≠ 0)
    (htie : dist (cfgs.get ⟨j, hj⟩) orig = dist (cfgs.get ⟨i, hi⟩) orig) :
    i ≤ j := by
  obtain ⟨hi2, _, hdist, hlt, hres⟩ := ccc_some cfgs orig i h
  have h1 : dist (cfgs.get ⟨j, hj⟩) orig =
      (cccLoop orig cfgs f32MAXs usizeMAX 0 false).1 := by rw [htie]; exact hdist
  have := cccLoop_first orig cfgs f32MAXs usizeMAX 0 false j hj hjelig h1 hlt
  omega

/-- An all-zero inventory makes the query fail (the `panic!` branch). -/
theorem ccc_none_of_all_zero (cfgs : List ColorConfig) (orig : Color)
    (h : ∀ cfg ∈ cfgs, cfg.count = 0) :
    calculate_closest_color cfgs orig = none := by
  have hany : (cfgs.any fun cfg => !(cfg.count == 0)) = false := by
    simp only [List.any_eq_false]
    intro cfg hmem
    simp [h cfg hmem]
  have hhas := cccLoop_has orig cfgs f32MAXs usizeMAX 0 false
  rw [hany] at hhas
  simp only [Bool.or_false] at hhas
  unfold calculate_closest_color
  rw [if_pos]
  left
  exact hhas

/-- `bitlen` of zero is zero at every fuel. -/
theorem bitlen_zero : ∀ fuel, bitlen fuel 0 = 0
  | 0 => rfl
  | _ + 1 => by simp [bitlen]

/-- A positive number within fuel has at least one binary digit. -/
theorem bitlen_pos (fuel n : Nat) (h1 : 0 < n) (h2 : n < 2 ^ fuel) :
    1 ≤ bitlen fuel n := by
  cases fuel with
  | zero =>
    simp only [Nat.pow_zero] at h2
    omega
  | succ fuel =>
    simp only [bitlen, if_neg (by omega : ¬ n = 0)]
    omega

/-- Lower half of the `bitlen` specification: a number reaches its leading
binary digit. -/
theorem bitlen_lower :
    ∀ (fuel n : Nat), 0 < n → n < 2 ^ fuel → 2 ^ (bitlen fuel n - 1) ≤ n := by
  intro fuel
  induction fuel with
  | zero =>
    intro n h1 h2
    simp only [Nat.pow_zero] at h2
    omega
  | succ fuel ih =>
    intro n h1 h2
    simp only [bitlen, if_neg (by omega : ¬ n = 0)]
    by_cases hhalf : n / 2 = 0
    · have hn1 : n = 1 := by omega
      subst hn1
      simp [bitlen_zero]
    · have hlt : n / 2 < 2 ^ fuel := by
        rw [Nat.pow_succ] at h2
        omega
      have hlow := ih (n / 2) (by omega) hlt
      have hpos := bitlen_pos fuel (n / 2) (by omega) hlt
      have hpow : 2 ^ bitlen fuel (n / 2) = 2 ^ (bitlen fuel (n / 2) - 1) * 2 := by
        conv_lhs => rw [show bitlen fuel (n / 2) = (bitlen fuel (n / 2) - 1) + 1 by omega]
        rw [Nat.pow_succ]
      simp only [Nat.add_sub_cancel]
      rw [hpow]
      omega

/-- Rounding at most doubles the magnitude (coarse bound, enough for the
sentinel comparison). -/
theorem froundS_natAbs_le (v : ℤ) (hv : v.natAbs < 2 ^ 128) :
    (froundS v).natAbs ≤ 2 * v.natAbs := by
  simp only [froundS]
  by_cases h24 : bitlen 128 v.natAbs ≤ 24
  · rw [if_pos h24]
    omega
  · rw [if_neg h24]
    have hn0 : 0 < v.natAbs := by
      by_contra h0
      have hz : v.natAbs = 0 := by omega
      rw [hz, bitlen_zero] at h24
      omega
    have hlow := bitlen_lower 128 v.natAbs hn0 hv
    have hshle : 2 ^ (bitlen 128 v.natAbs - 24) ≤ 2 ^ (bitlen 128 v.natAbs - 1) :=
      Nat.pow_le_pow_right (by omega) (by omega)
    have hqmul : v.natAbs / 2 ^ (bitlen 128 v.natAbs - 24) *
        2 ^ (bitlen 128 v.natAbs - 24) ≤ v.natAbs := Nat.div_mul_le_self _ _
    by_cases hneg : v < 0
    · rw [if_pos hneg, Int.natAbs_neg, Int.natAbs_ofNat]
      split
      · rw [Nat.add_mul, Nat.one_mul]
        omega
      · omega
    · rw [if_neg hneg, Int.natAbs_ofNat]
      split
      · rw [Nat.add_mul, Nat.one_mul]
        omega
      · omega

/-- Bound on a weighted channel difference after one `f32` multiplication. -/
theorem fmulS_weight_natAbs_le (d w : ℤ) (hd : d.natAbs ≤ 255)
    (hw : w.natAbs ≤ 2 ^ 54) :
    (fmulS (d * 2 ^ 54) w).natAbs ≤ 2 ^ 64 := by
  unfold fmulS
  have hdiv : d * 2 ^ 54 * w / 2 ^ 54 = d * w := by
    have h1 : d * 2 ^ 54 * w = 2 ^ 54 * (d * w) := by ring
    rw [h1]
    exact Int.mul_ediv_cancel_left _ (by norm_num)
  rw [hdiv]
  have h2 : (d * w).natAbs ≤ 255 * 2 ^ 54 := by
    rw [Int.natAbs_mul]
    exact Nat.mul_le_mul hd hw
  have hlt : (255 : Nat) * 2 ^ 54 < 2 ^ 128 := by norm_num
  have h3 := froundS_natAbs_le (d * w) (by omega)
  have h4 : 2 * (255 * 2 ^ 54) ≤ (2 : Nat) ^ 64 := by norm_num
  omega

/-- Bound on a squared term after one `f32` multiplication. -/
theorem fmulS_sq_natAbs_le (t : ℤ) (ht : t.natAbs ≤ 2 ^ 64) :
    (fmulS t t).natAbs ≤ 2 ^ 76 := by
  unfold fmulS
  have hmul : (t * t).natAbs ≤ 2 ^ 128 := by
    rw [Int.natAbs_mul]
    calc t.natAbs * t.natAbs ≤ 2 ^ 64 * 2 ^ 64 := Nat.mul_le_mul ht ht
    _ = 2 ^ 128 := by norm_num
  have hqnn : 0 ≤ t * t / 2 ^ 54 := Int.ediv_nonneg (mul_self_nonneg t) (by norm_num)
  have h128 : t * t ≤ 2 ^ 128 := by
    have hle := Int.le_natAbs (a := t * t)
    have : ((t * t).natAbs : ℤ) ≤ ((2 : ℤ) ^ 128) := by exact_mod_cast hmul
    omega
  have hqle : t * t / 2 ^ 54 ≤ 2 ^ 74 := by
    calc t * t / 2 ^ 54 ≤ 2 ^ 128 / 2 ^ 54 := Int.ediv_le_ediv (by norm_num) h128
    _ = 2 ^ 74 := by norm_num
  have habs : (t * t / 2 ^ 54).natAbs ≤ 2 ^ 74 := by
    have h74 : ((2 : ℤ) ^ 74) = ((2 ^ 74 : Nat) : ℤ) := by norm_num
    omega
  have hlt : (2 : Nat) ^ 74 < 2 ^ 128 := by norm_num
  have h3 := froundS_natAbs_le (t * t / 2 ^ 54) (by omega)
  have h4 : 2 * (2 : Nat) ^ 74 ≤ 2 ^ 76 := by norm_num
  omega

/-- With `u8` channel bounds, every distance is strictly below the sentinel. -/
theorem dist_lt_f32MAXs (cfg : ColorConfig) (c : Color)
    (h1 : ValidCfg cfg) (h2 : ValidColor c) : dist cfg c < f32MAXs := by
  obtain ⟨hr1, hg1, hb1⟩ := h1
  obtain ⟨hr2, hg2, hb2⟩ := h2
  have hdr : ((cfg.r : ℤ) - (c.r : ℤ)).natAbs ≤ 255 := by omega
  have hdg : ((cfg.g : ℤ) - (c.g : ℤ)).natAbs ≤ 255 := by omega
  have hdb : ((cfg.b : ℤ) - (c.b : ℤ)).natAbs ≤ 255 := by omega
  have hw3 : W3s.natAbs ≤ 2 ^ 54 := by norm_num [W3s]
  have hw59 : W59s.natAbs ≤ 2 ^ 54 := by norm_num [W59s]
  have hw11 : W11s.natAbs ≤ 2 ^ 54 := by norm_num [W11s]
  have hr := fmulS_sq_natAbs_le _ (fmulS_weight_natAbs_le _ _ hdr hw3)
  have hg := fmulS_sq_natAbs_le _ (fmulS_weight_natAbs_le _ _ hdg hw59)
  have hb := fmulS_sq_natAbs_le _ (fmulS_weight_natAbs_le _ _ hdb hw11)
  simp only [dist]
  set r2 := fmulS (fmulS (((cfg.r : ℤ) - (c.r : ℤ)) * 2 ^ 54) W3s)
    (fmulS (((cfg.r : ℤ) - (c.r : ℤ)) * 2 ^ 54) W3s) with hr2def
  set g2 := fmulS (fmulS (((cfg.g : ℤ) - (c.g : ℤ)) * 2 ^ 54) W59s)
    (fmulS (((cfg.g : ℤ) - (c.g : ℤ)) * 2 ^ 54) W59s) with hg2def
  set b2 := fmulS (fmulS (((cfg.b : ℤ) - (c.b : ℤ)) * 2 ^ 54) W11s)
    (fmulS (((cfg.b : ℤ) - (c.b : ℤ)) * 2 ^ 54) W11s) with hb2def
  have hsum1 : (r2 + g2).natAbs ≤ 2 ^ 77 := by
    have := Int.natAbs_add_le r2 g2
    have h4 : (2 : Nat) ^ 76 + 2 ^ 76 = 2 ^ 77 := by norm_num
    omega
  have hlt1 : (2 : Nat) ^ 77 < 2 ^ 128 := by norm_num
  have hs1 : (faddS r2 g2).natAbs ≤ 2 ^ 78 := by
    rw [show faddS r2 g2 = froundS (r2 + g2) from rfl]
    have := froundS_natAbs_le (r2 + g2) (by omega)
    have h4 : 2 * (2 : Nat) ^ 77 = 2 ^ 78 := by norm_num
    omega
  have hsum2 : (faddS r2 g2 + b2).natAbs ≤ 2 ^ 79 := by
    have := Int.natAbs_add_le (faddS r2 g2) b2
    have h4 : (2 : Nat) ^ 78 + 2 ^ 76 ≤ 2 ^ 79 := by norm_num
    omega
  have hlt2 : (2 : Nat) ^ 79 < 2 ^ 128 := by norm_num
  have hfin : (faddS (faddS r2 g2) b2).natAbs ≤ 2 ^ 80 := by
    rw [show faddS (faddS r2 g2) b2 = froundS (faddS r2 g2 + b2) from rfl]
    have := froundS_natAbs_le (faddS r2 g2 + b2) (by omega)
    have h4 : 2 * (2 : Nat) ^ 79 = 2 ^ 80 := by norm_num
    omega
  have hle := Int.le_natAbs (a := faddS (faddS r2 g2) b2)
  have hcast : ((faddS (faddS r2 g2) b2).natAbs : ℤ) ≤ ((2 : ℤ) ^ 80) := by
    exact_mod_cast hfin
  have hbig : ((2 : ℤ) ^ 80) < f32MAXs := by norm_num [f32MAXs]
  omega

/-- With a valid sample, valid palette channels and at least one eligible
entry, the query succeeds. -/
theorem ccc_isSome (cfgs : List ColorConfig) (orig : Color)
    (hc : ValidColor orig) (hcfg : ∀ cfg ∈ cfgs, ValidCfg cfg)
    (j : Nat) (hj : j < cfgs.length)
    (hjelig : (cfgs.get ⟨j, hj⟩).count ≠ 0) :
    ∃ i, calculate_closest_color cfgs orig = some i := by
  have hmin := cccLoop_min orig cfgs f32MAXs usizeMAX 0 false j hj hjelig
  have hdlt := dist_lt_f32MAXs (cfgs.get ⟨j, hj⟩) orig
    (hcfg _ (List.get_mem cfgs j hj)) hc
  have h1 : (cccLoop orig cfgs f32MAXs usizeMAX 0 false).1 < f32MAXs :=
    lt_of_le_of_lt hmin hdlt
  have hhas : (cccLoop orig cfgs f32MAXs usizeMAX 0 false).2.2 = true := by
    rw [cccLoop_has]
    simp only [Bool.false_or, List.any_eq_true]
    exact ⟨cfgs.get ⟨j, hj⟩, List.get_mem cfgs j hj, by simpa using hjelig⟩
  refine ⟨(cccLoop orig cfgs f32MAXs usizeMAX 0 false).2.1, ?_⟩
  unfold calculate_closest_color
  rw [if_neg]
  push_neg
  exact ⟨by simp [hhas], ne_of_lt h1⟩

/-! ### Lemmas about the quantization loop -/

/-- A successful run records assignments at exactly the traversed
coordinates, in traversal order. -/
theorem quantize_ok_map_coords :
    ∀ (cells : List Color) (cfgs : List ColorConfig) (outs : List Color)
      (final : List ColorConfig),
      quantize cells cfgs = Except.ok (outs, final) →
      outs.map coords = cells.map coords := by
  intro cells
  induction cells with
  | nil =>
    intro cfgs outs final h
    simp only [quantize, Except.ok.injEq, Prod.mk.injEq] at h
    obtain ⟨h1, _⟩ := h
    subst h1
    rfl
  | cons c rest ih =>
    intro cfgs outs final h
    simp only [quantize] at h
    split at h
    · exact Except.noConfusion h
    · split at h
      · exact Except.noConfusion h
      · rename_i cfg hget
        split at h
        · exact Except.noConfusion h
        · split at h
          · rename_i outs2 fin2 hrec
            simp only [Except.ok.injEq, Prod.mk.injEq] at h
            obtain ⟨h1, _⟩ := h
            subst h1
            simp only [List.map_cons, coords]
            exact congrArg _ (ih _ outs2 fin2 hrec)
          · exact Except.noConfusion h

/-- Pointwise form of a single decrement: every entry of the updated
inventory has stock at most that of the original. -/
theorem forall2_set :
    ∀ (cfgs : List ColorConfig) (i : Nat) (cfg x : ColorConfig),
      cfgs[i]? = some cfg → x.count ≤ cfg.count →
      List.Forall₂ (fun a b => b.count ≤ a.count) cfgs (cfgs.set i x) := by
  intro cfgs
  induction cfgs with
  | nil => intro i cfg x h; exact absurd h (by simp)
  | cons a rest ih =>
    intro i cfg x h hle
    cases i with
    | zero =>
      simp only [List.getElem?_cons_zero, Option.some.injEq] at h
      subst h
      simp only [List.set_cons_zero]
      exact List.Forall₂.cons hle (List.forall₂_same.2 fun b _ => le_refl _)
    | succ i =>
      simp only [List.getElem?_cons_succ] at h
      simp only [List.set_cons_succ]
      exact List.Forall₂.cons (le_refl _) (ih i cfg x h hle)

/-- Transitivity of the pointwise stock comparison. -/
theorem forall2_count_trans :
    ∀ (l1 l2 l3 : List ColorConfig),
      List.Forall₂ (fun a b => b.count ≤ a.count) l1 l2 →
      List.Forall₂ (fun a b => b.count ≤ a.count) l2 l3 →
      List.Forall₂ (fun a b => b.count ≤ a.count) l1 l3 := by
  intro l1
  induction l1 with
  | nil =>
    intro l2 l3 h12 h23
    cases h12
    cases h23
    exact List.Forall₂.nil
  | cons a rest ih =>
    intro l2 l3 h12 h23
    cases h12 with
    | cons hab htail =>
      cases h23 with
      | cons hbc htail2 =>
        exact List.Forall₂.cons (le_trans hbc hab) (ih _ _ htail htail2)

/-- Across a successful run, every entry's stock only decreases (and the
inventory keeps its length and entry order). -/
theorem quantize_ok_forall2 :
    ∀ (cells : List Color) (cfgs : List ColorConfig) (outs : List Color)
      (final : List ColorConfig),
      quantize cells cfgs = Except.ok (outs, final) →
      List.Forall₂ (fun a b => b.count ≤ a.count) cfgs final := by
  intro cells
  induction cells with
  | nil =>
    intro cfgs outs final h
    simp only [quantize, Except.ok.injEq, Prod.mk.injEq] at h
    obtain ⟨_, h2⟩ := h
    subst h2
    exact List.forall₂_same.2 fun b _ => le_refl _
  | cons c rest ih =>
    intro cfgs outs final h
    simp only [quantize] at h
    split at h
    · exact Except.noConfusion h
    · rename_i i hccc
      split at h
      · exact Except.noConfusion h
      · rename_i cfg hget
        split at h
        · exact Except.noConfusion h
        · split at h
          · rename_i outs2 fin2 hrec
            simp only [Except.ok.injEq, Prod.mk.injEq] at h
            obtain ⟨_, h2⟩ := h
            subst h2
            refine forall2_count_trans _ _ _
              (forall2_set cfgs i cfg _ hget (by simp)) (ih _ outs2 fin2 hrec)
          · exact Except.noConfusion h

/-- Replacing entry `i` changes the total stock by the entry's difference. -/
theorem totalStock_set :
    ∀ (cfgs : List ColorConfig) (i : Nat) (cfg x : ColorConfig),
      cfgs[i]? = some cfg →
      totalStock (cfgs.set i x) + cfg.count = totalStock cfgs + x.count := by
  intro cfgs
  induction cfgs with
  | nil => intro i cfg x h; exact absurd h (by simp)
  | cons a rest ih =>
    intro i cfg x h
    cases i with
    | zero =>
      simp only [List.getElem?_cons_zero, Option.some.injEq] at h
      subst h
      simp only [List.set_cons_zero, totalStock, List.map_cons, List.sum_cons]
      omega
    | succ i =>
      simp only [List.getElem?_cons_succ] at h
      have := ih i cfg x h
      simp only [List.set_cons_succ, totalStock, List.map_cons, List.sum_cons] at this ⊢
      omega

/-- Stock conservation: a successful run consumes exactly one unit of total
stock per assignment. -/
theorem quantize_ok_total :
    ∀ (cells : List Color) (cfgs : List ColorConfig) (outs : List Color)
      (final : List ColorConfig),
      quantize cells cfgs = Except.ok (outs, final) →
      totalStock cfgs = totalStock final + outs.length := by
  intro cells
  induction cells with
  | nil =>
    intro cfgs outs final h
    simp only [quantize, Except.ok.injEq, Prod.mk.injEq] at h
    obtain ⟨h1, h2⟩ := h
    subst h1; subst h2
    simp
  | cons c rest ih =>
    intro cfgs outs final h
    simp only [quantize] at h
    split at h
    · exact Except.noConfusion h
    · rename_i i hccc
      split at h
      · exact Except.noConfusion h
      · rename_i cfg hget
        split at h
        · exact Except.noConfusion h
        · rename_i hcnt
          split at h
          · rename_i outs2 fin2 hrec
            simp only [Except.ok.injEq, Prod.mk.injEq] at h
            obtain ⟨h1, h2⟩ := h
            subst h1; subst h2
            have hset := totalStock_set cfgs i cfg cfg.decrement hget
            have hihs := ih _ outs2 fin2 hrec
            simp only [decrement_count] at hset
            simp only [List.length_cons]
            omega
          · exact Except.noConfusion h

/-- The underflow branch of `decrement` is unreachable: the query never
returns a zero-stock entry. -/
theorem quantize_ne_underflow :
    ∀ (cells : List Color) (cfgs : List ColorConfig),
      quantize cells cfgs ≠ Except.error QErr.underflow := by
  intro cells
  induction cells with
  | nil => intro cfgs h; exact Except.noConfusion h
  | cons c rest ih =>
    intro cfgs h
    simp only [quantize] at h
    split at h
    · injection h with h; exact QErr.noConfusion h
    · rename_i i hccc
      split at h
      · injection h with h; exact QErr.noConfusion h
      · rename_i cfg hget
        split at h
        · rename_i hcnt
          obtain ⟨hi, helig⟩ := ccc_some_elig cfgs c i hccc
          have : cfg = cfgs.get ⟨i, hi⟩ := by
            have := List.getElem?_eq_getElem hi
            rw [this] at hget
            injection hget with hget
            exact hget.symm
          rw [this] at hcnt
          exact helig hcnt
        · split at h
          · exact Except.noConfusion h
          · rename_i e hrec
            injection h with h
            subst h
            exact ih _ hrec

/-- The out-of-range branch of the `get_mut(...).expect` is unreachable. -/
theorem quantize_ne_oob :
    ∀ (cells : List Color) (cfgs : List ColorConfig),
      quantize cells cfgs ≠ Except.error QErr.oob := by
  intro cells
  induction cells with
  | nil => intro cfgs h; exact Except.noConfusion h
  | cons c rest ih =>
    intro cfgs h
    simp only [quantize] at h
    split at h
    · injection h with h; exact QErr.noConfusion h
    · rename_i i hccc
      split at h
      · rename_i hget
        have hi := ccc_some_lt_length cfgs c i hccc
        rw [List.getElem?_eq_getElem hi] at hget
        exact Option.noConfusion hget
      · split at h
        · injection h with h; exact QErr.noConfusion h
        · split at h
          · exact Except.noConfusion h
          · rename_i e hrec
            injection h with h
            subst h
            exact ih _ hrec

/-- With insufficient total stock the run always fails with exhaustion. -/
theorem quantize_exhausted_of_stock_lt :
    ∀ (cells : List Color) (cfgs : List ColorConfig),
      totalStock cfgs < cells.length →
      quantize cells cfgs = Except.error QErr.exhausted := by
  intro cells
  induction cells with
  | nil => intro cfgs h; exact absurd h (by simp)
  | cons c rest ih =>
    intro cfgs hlt
    cases hccc : calculate_closest_color cfgs c with
    | none => simp [quantize, hccc]
    | some i =>
      obtain ⟨hi, helig⟩ := ccc_some_elig cfgs c i hccc
      have hget : cfgs[i]? = some (cfgs.get ⟨i, hi⟩) := List.getElem?_eq_getElem hi
      have hset := totalStock_set cfgs i (cfgs.get ⟨i, hi⟩)
        (cfgs.get ⟨i, hi⟩).decrement hget
      simp only [decrement_count] at hset
      have hlt2 : totalStock (cfgs.set i (cfgs.get ⟨i, hi⟩).decrement) <
          rest.length := by
        simp only [List.length_cons] at hlt
        omega
      have hrec := ih _ hlt2
      have hgg : cfgs.get ⟨i, hi⟩ = cfgs[i] := rfl
      rw [hgg] at helig hget hrec
      simp [quantize, hccc, hget, helig, hrec]

/-- A zero-stock entry stays a valid `u8` triple after the (modelled)
decrement, and total stock decreases by one; with enough stock, the whole
run succeeds. -/
theorem quantize_isOk :
    ∀ (cells : List Color) (cfgs : List ColorConfig),
      (∀ c ∈ cells, ValidColor c) → (∀ cfg ∈ cfgs, ValidCfg cfg) →
      cells.length ≤ totalStock cfgs →
      ∃ outs final, quantize cells cfgs = Except.ok (outs, final) := by
  intro cells
  induction cells with
  | nil => intro cfgs _ _ _; exact ⟨[], cfgs, rfl⟩
  | cons c rest ih =>
    intro cfgs hvc hvcfg hstock
    have hne : totalStock cfgs ≠ 0 := by
      simp only [List.length_cons] at hstock
      omega
    have hex : ∃ cfg ∈ cfgs, cfg.count ≠ 0 := by
      by_contra hall
      push_neg at hall
      exact hne (by
        simp only [totalStock]
        exact List.sum_eq_zero fun x hx => by
          obtain ⟨cfg, hmem, hcfg⟩ := List.mem_map.1 hx
          rw [← hcfg]
          exact hall cfg hmem)
    obtain ⟨cfg0, hmem0, hne0⟩ := hex
    obtain ⟨j, hj⟩ := List.mem_iff_get.1 hmem0
    obtain ⟨i, hccc⟩ := ccc_isSome cfgs c (hvc c (by simp)) hvcfg j.1 j.2
      (by rw [hj]; exact hne0)
    obtain ⟨hi, helig⟩ := ccc_some_elig cfgs c i hccc
    have hget : cfgs[i]? = some (cfgs.get ⟨i, hi⟩) := List.getElem?_eq_getElem hi
    have hset := totalStock_set cfgs i (cfgs.get ⟨i, hi⟩)
      (cfgs.get ⟨i, hi⟩).decrement hget
    simp only [decrement_count] at hset
    have hstock2 : rest.length ≤
        totalStock (cfgs.set i (cfgs.get ⟨i, hi⟩).decrement) := by
      simp only [List.length_cons] at hstock
      omega
    have hvcfg2 : ∀ cfg ∈ cfgs.set i (cfgs.get ⟨i, hi⟩).decrement,
        ValidCfg cfg := by
      intro cfg hmem
      rcases List.mem_or_eq_of_mem_set hmem with hmem2 | heq
      · exact hvcfg cfg hmem2
      · rw [heq]
        have := hvcfg _ (List.get_mem cfgs i hi)
        exact this
    obtain ⟨outs2, fin2, hrec⟩ := ih _ (fun x hx => hvc x (by simp [hx])) hvcfg2 hstock2
    have hgg : cfgs.get ⟨i, hi⟩ = cfgs[i] := rfl
    rw [hgg] at helig hget hrec
    refine ⟨{ r := cfgs[i].r, g := cfgs[i].g, b := cfgs[i].b,
              x := c.x, y := c.y } :: outs2, fin2, ?_⟩
    simp [quantize, hccc, hget, helig, hrec]

/-! ### Lemmas about the final sort -/

/-- The boolean comparator agrees with the arithmetic row-major order. -/
theorem colorLe_iff (a b : Color) :
    colorLe a b = true ↔ colorLeP a b := by
  unfold colorLe cmpColor colorLeP
  rcases Nat.lt_trichotomy a.y b.y with h | h | h
  · rw [Nat.compare_eq_lt.2 h]
    constructor
    · intro _
      omega
    · intro _
      rfl
  · rw [Nat.compare_eq_eq.2 h]
    cases hc : compare a.x b.x
    · have hx := Nat.compare_eq_lt.1 hc
      constructor
      · intro _
        omega
      · intro _
        rfl
    · have hx := Nat.compare_eq_eq.1 hc
      constructor
      · intro _
        omega
      · intro _
        rfl
    · have hx := Nat.compare_eq_gt.1 hc
      constructor
      · intro hfalse
        exact Bool.noConfusion hfalse
      · intro hr
        exfalso
        omega
  · rw [Nat.compare_eq_gt.2 h]
    constructor
    · intro hfalse
      exact Bool.noConfusion hfalse
    · intro hr
      exfalso
      omega

/-- Totality of the comparator. -/
theorem colorLe_total (a b : Color) (h : ¬ colorLe a b = true) :
    colorLe b a = true := by
  rw [colorLe_iff]
  have h2 : ¬ colorLeP a b := fun hc => h ((colorLe_iff a b).2 hc)
  unfold colorLeP at h2 ⊢
  omega

/-- Transitivity of the row-major order. -/
theorem colorLeP_trans {a b c : Color} (h1 : colorLeP a b) (h2 : colorLeP b c) :
    colorLeP a c := by
  unfold colorLeP at h1 h2 ⊢
  omega

/-- Inserting permutes: the result holds the new element plus the old ones. -/
theorem insertSorted_perm (a : Color) (l : List Color) :
    (insertSorted a l).Perm (a :: l) := by
  induction l with
  | nil => exact List.Perm.refl _
  | cons b rest ih =>
    unfold insertSorted
    by_cases h : colorLe a b = true
    · rw [if_pos h]
    · rw [if_neg h]
      exact (List.Perm.cons b ih).trans (List.Perm.swap a b rest)

/-- The sort permutes its input. -/
theorem sortColors_perm (l : List Color) : (sortColors l).Perm l := by
  induction l with
  | nil => exact List.Perm.refl _
  | cons a rest ih =>
    exact (insertSorted_perm a (sortColors rest)).trans (List.Perm.cons a ih)

/-- Inserting into a row-major-sorted list keeps it sorted. -/
theorem insertSorted_pairwise (a : Color) (l : List Color)
    (hl : List.Pairwise colorLeP l) :
    List.Pairwise colorLeP (insertSorted a l) := by
  induction l with
  | nil => simp [insertSorted]
  | cons b rest ih =>
    obtain ⟨hhead, htail⟩ := List.pairwise_cons.1 hl
    unfold insertSorted
    by_cases h : colorLe a b = true
    · rw [if_pos h]
      refine List.Pairwise.cons ?_ hl
      intro x hx
      rcases List.mem_cons.1 hx with hxb | hxr
      · rw [hxb]
        exact (colorLe_iff a b).1 h
      · exact colorLeP_trans ((colorLe_iff a b).1 h) (hhead x hxr)
    · rw [if_neg h]
      refine List.Pairwise.cons ?_ (ih htail)
      intro x hx
      rcases List.mem_cons.1 ((insertSorted_perm a rest).mem_iff.1 hx) with hxa | hxr
      · rw [hxa]
        exact (colorLe_iff b a).1 (colorLe_total a b h)
      · exact hhead x hxr

/-- The sort's output is row-major sorted. -/
theorem sortColors_pairwise (l : List Color) :
    List.Pairwise colorLeP (sortColors l) := by
  induction l with
  | nil => simp [sortColors]
  | cons a rest ih => exact insertSorted_pairwise a (sortColors rest) ih

/-- Sorting an already-sorted list returns it unchanged. -/
theorem sortColors_of_pairwise (l : List Color)
    (hl : List.Pairwise colorLeP l) : sortColors l = l := by
  induction l with
  | nil => rfl
  | cons a rest ih =>
    obtain ⟨hhead, htail⟩ := List.pairwise_cons.1 hl
    show insertSorted a (sortColors rest) = a :: rest
    rw [ih htail]
    cases rest with
    | nil => rfl
    | cons b rest2 =>
      unfold insertSorted
      rw [if_pos ((colorLe_iff a b).2 (hhead b (by simp)))]

/-! ### Lemmas about the grid and its coordinates -/

/-- The grid's coordinates, independent of the sampled image. -/
theorem gridCells_map_coords (src : Nat → Nat → Nat × Nat × Nat) :
    (gridCells src).map coords =
      (List.range Y_SIZE).flatMap fun y =>
        (List.range X_SIZE).map fun x => (x, y) := by
  unfold gridCells
  rw [List.map_flatMap]
  congr 1

/-- Row-major enumeration of a `W × H` grid, as flat indices. -/
theorem rowMajor_flatMap :
    ∀ (W H : Nat), 0 < W →
      ((List.range H).flatMap fun y => (List.range W).map fun x => (x, y)) =
      (List.range (W * H)).map fun i => (i % W, i / W) := by
  intro W H hW
  induction H with
  | zero => simp
  | succ H ih =>
    rw [List.range_succ, List.flatMap_append, ih, Nat.mul_succ, List.range_add,
      List.map_append]
    congr 1
    · simp only [List.flatMap_cons, List.flatMap_nil, List.append_nil, List.map_map]
      refine (List.map_congr_left ?_).symm
      intro j hj
      have hjW : j < W := List.mem_range.1 hj
      simp only [Function.comp_apply, Prod.mk.injEq]
      constructor
      · rw [Nat.mul_add_mod, Nat.mod_eq_of_lt hjW]
      · rw [Nat.mul_add_div hW, Nat.div_eq_of_lt hjW]
        omega

/-- The grid's coordinate list is the row-major enumeration. -/
theorem gridCells_coords_rowMajor (src : Nat → Nat → Nat × Nat × Nat) :
    (gridCells src).map coords = rowMajorCoords := by
  rw [gridCells_map_coords, rowMajorCoords]
  exact rowMajor_flatMap X_SIZE Y_SIZE (by decide)

/-- No coordinate pair repeats. -/
theorem rowMajorCoords_nodup : rowMajorCoords.Nodup := by
  unfold rowMajorCoords
  refine List.Nodup.map_on ?_ (List.nodup_range _)
  intro i hi j hj heq
  have h1 := List.mem_range.1 hi
  have h2 := List.mem_range.1 hj
  simp only [Prod.mk.injEq, X_SIZE, Y_SIZE] at heq h1 h2
  omega

/-- Every in-range coordinate pair occurs. -/
theorem rowMajorCoords_mem (x y : Nat) (hx : x < X_SIZE) (hy : y < Y_SIZE) :
    (x, y) ∈ rowMajorCoords := by
  unfold rowMajorCoords
  refine List.mem_map.2 ⟨y * X_SIZE + x, List.mem_range.2 ?_, ?_⟩
  · simp only [X_SIZE, Y_SIZE] at hx hy ⊢
    omega
  · simp only [X_SIZE, Y_SIZE, Prod.mk.injEq] at hx hy ⊢
    omega

/-- A predicate that picks out exactly one element of a duplicate-free list
is satisfied exactly once. -/
theorem countP_eq_one_of_nodup {α : Type} (p : α → Bool) (l : List α) (a : α)
    (hq : ∀ b, p b = true ↔ b = a) (hnd : l.Nodup) (hmem : a ∈ l) :
    l.countP p = 1 := by
  induction l with
  | nil => cases hmem
  | cons b rest ih =>
    obtain ⟨hnotmem, hndrest⟩ := List.nodup_cons.1 hnd
    rcases List.mem_cons.1 hmem with heq | hmem2
    · rw [List.countP_cons_of_pos _ _ ((hq b).2 heq.symm)]
      have hzero : rest.countP p = 0 := by
        rw [List.countP_eq_zero]
        intro c hc hpc
        rw [(hq c).1 hpc] at hc
        rw [heq] at hc
        exact hnotmem hc
      rw [hzero]
    · have hba : ¬ p b = true := fun hpb => hnotmem (((hq b).1 hpb) ▸ hmem2)
      rw [List.countP_cons_of_neg _ _ hba]
      exact ih hndrest hmem2

/-- Each in-range coordinate pair is hit exactly once by the row-major
enumeration. -/
theorem rowMajorCoords_countP (x y : Nat) (hx : x < X_SIZE) (hy : y < Y_SIZE) :
    rowMajorCoords.countP (fun pr => pr.1 == x && pr.2 == y) = 1 := by
  refine countP_eq_one_of_nodup _ _ (x, y) ?_ rowMajorCoords_nodup
    (rowMajorCoords_mem x y hx hy)
  intro b
  cases b with
  | mk b1 b2 => simp [Prod.mk.injEq]

/-- The row-major enumeration is sorted for the row-major order. -/
theorem rowMajorCoords_pairwise : List.Pairwise coordLe rowMajorCoords := by
  unfold rowMajorCoords
  refine List.Pairwise.map _ ?_ (List.pairwise_lt_range _)
  intro i j hij
  simp only [coordLe, X_SIZE]
  omega

/-- The row-major enumeration has one entry per cell. -/
theorem rowMajorCoords_length : rowMajorCoords.length = X_SIZE * Y_SIZE := by
  unfold rowMajorCoords
  rw [List.length_map, List.length_range]

/-- The `i`-th entry of the row-major enumeration. -/
theorem rowMajorCoords_get (i : Nat) (hi : i < rowMajorCoords.length) :
    rowMajorCoords.get ⟨i, hi⟩ = (i % X_SIZE, i / X_SIZE) := by
  unfold rowMajorCoords at hi ⊢
  simp only [List.get_eq_getElem, List.getElem_map, List.getElem_range]

/-- The grid always holds `X_SIZE * Y_SIZE` cells. -/
theorem gridCells_length (src : Nat → Nat → Nat × Nat × Nat) :
    (gridCells src).length = X_SIZE * Y_SIZE := by
  have h1 := congrArg List.length (gridCells_coords_rowMajor src)
  rwa [List.length_map, rowMajorCoords_length] at h1

/-- Cells sampled from a `u8`-bounded image are valid. -/
theorem gridCells_valid (src : Nat → Nat → Nat × Nat × Nat)
    (hsrc : ∀ x y, (src x y).1 ≤ 255 ∧ (src x y).2.1 ≤ 255 ∧ (src x y).2.2 ≤ 255) :
    ∀ c ∈ gridCells src, ValidColor c := by
  intro c hc
  unfold gridCells at hc
  rw [List.mem_flatMap] at hc
  obtain ⟨y, _, hc2⟩ := hc
  rw [List.mem_map] at hc2
  obtain ⟨x, _, rfl⟩ := hc2
  exact hsrc x _

/-- Optional-lookup form of `rowMajorCoords_get`. -/
theorem rowMajorCoords_getElemOpt (i : Nat) (hi : i < X_SIZE * Y_SIZE) :
    rowMajorCoords[i]? = some (i % X_SIZE, i / X_SIZE) := by
  unfold rowMajorCoords
  rw [List.getElem?_map, List.getElem?_range hi]
  rfl

/-- Summed per-entry stock differences recover the total difference. -/
theorem zip_sub_sum :
    ∀ (l1 l2 : List ColorConfig),
      List.Forall₂ (fun a b => b.count ≤ a.count) l1 l2 →
      ((l1.zip l2).map fun p => p.1.count - p.2.count).sum + totalStock l2 =
        totalStock l1 := by
  intro l1 l2 h
  induction h with
  | nil => simp [totalStock]
  | cons hab htail ih =>
    rename_i a b la lb
    simp only [List.zip_cons_cons, List.map_cons, List.sum_cons, totalStock,
      List.map_cons, List.sum_cons] at ih ⊢
    omega

/-! ### Lemmas about the usage report (spec-modelled component) -/

theorem sum_map_add (ns : List Nat) (g h : Nat → Nat) :
    (ns.map fun n => g n + h n).sum = (ns.map g).sum + (ns.map h).sum := by
  induction ns with
  | nil => rfl
  | cons a rest ih =>
    simp only [List.map_cons, List.sum_cons, ih]
    omega

theorem sum_indicator_eq_count (c : Nat) (ns : List Nat) :
    (ns.map fun n => if c == n then 1 else 0).sum = ns.count c := by
  induction ns with
  | nil => rfl
  | cons a rest ih =>
    simp only [List.map_cons, List.sum_cons, ih, List.count_cons]
    by_cases h : a = c
    · subst h
      simp
      omega
    · have h1 : (a == c) = false := by simp [h]
      have h2 : (c == a) = false := by simp [Ne.symm h]
      simp [h1, h2]

/-- Counting each possible entry position partitions a list of chosen
positions drawn from `range len` — with no distinctness assumption on
display names, since positions are distinct by construction. -/
theorem counts_partition (len : Nat) (chosen : List Nat)
    (hmem : ∀ k ∈ chosen, k < len) :
    ((List.range len).map fun i => chosen.count i).sum = chosen.length := by
  induction chosen with
  | nil => simp
  | cons c cs ih =>
    have hsplit : ((List.range len).map fun n => (c :: cs).count n).sum
        = ((List.range len).map fun n => cs.count n + if c == n then 1 else 0).sum := by
      refine congrArg List.sum (List.map_congr_left fun n _ => ?_)
      exact List.count_cons n c cs
    rw [hsplit, sum_map_add, ih (fun k hk => hmem k (List.mem_cons_of_mem c hk)),
      sum_indicator_eq_count]
    have hone : (List.range len).count c = 1 :=
      List.count_eq_one_of_mem (List.nodup_range len)
        (List.mem_range.2 (hmem c (List.mem_cons_self c cs)))
    rw [hone]
    simp

/-- The grand total of the usage mapping equals the number of assignments,
for every palette (colliding display names included), whenever every chosen
position is in range. -/
theorem usageTotal_eq (cfgs : List ColorConfig) (chosen : List Nat)
    (hmem : ∀ k ∈ chosen, k < cfgs.length) :
    usageTotal cfgs chosen = chosen.length := by
  unfold usageTotal usageMapping
  rw [List.map_map]
  have h1 : ((fun p : String × Nat => p.2) ∘
      fun p : Nat × ColorConfig => (p.2.name, chosen.count p.1)) =
      (fun i => chosen.count i) ∘ Prod.fst := rfl
  rw [h1, ← List.map_map, List.enum_map_fst]
  exact counts_partition cfgs.length chosen hmem

/-! ### Claim theorems -/

/-- C1: for every source grid and every inventory whose total initial stock
is at least `W*H` (`W = H = 48`), the quantization pass returns exactly
`W*H` assignments, one for each coordinate pair `(x, y)` with
`0 ≤ x < W` and `0 ≤ y < H`, with no duplicate and no missing cell,
regardless of the traversal permutation. -/
theorem C1_quantize_complete
    (src : Nat → Nat → Nat × Nat × Nat) (cells : List Color)
    (cfgs : List ColorConfig)
    (hperm : cells.Perm (gridCells src))
    (hvalid : ∀ c ∈ cells, ValidColor c)
    (hvcfg : ∀ cfg ∈ cfgs, ValidCfg cfg)
    (hstock : X_SIZE * Y_SIZE ≤ totalStock cfgs) :
    ∃ outs final, quantize cells cfgs = Except.ok (outs, final) ∧
      outs.length = X_SIZE * Y_SIZE ∧
      ∀ x y, x < X_SIZE → y < Y_SIZE →
        outs.countP (fun a => a.x == x && a.y == y) = 1 := by
  have hlen : cells.length = X_SIZE * Y_SIZE := by
    rw [hperm.length_eq, gridCells_length]
  obtain ⟨outs, final, hok⟩ := quantize_isOk cells cfgs hvalid hvcfg (by omega)
  have hcoords := quantize_ok_map_coords cells cfgs outs final hok
  have hlenouts : outs.length = X_SIZE * Y_SIZE := by
    have := congrArg List.length hcoords
    rwa [List.length_map, List.length_map, hlen] at this
  refine ⟨outs, final, hok, hlenouts, ?_⟩
  intro x y hx hy
  have hperm2 : (outs.map coords).Perm rowMajorCoords := by
    rw [hcoords, ← gridCells_coords_rowMajor src]
    exact hperm.map coords
  have hcount := hperm2.countP_eq (fun pr => pr.1 == x && pr.2 == y)
  rw [List.countP_map] at hcount
  exact hcount.trans (rowMajorCoords_countP x y hx hy)

/-- Witness for C1: the constant black grid with a single palette entry of
stock exactly `48 * 48`. -/
theorem C1_witness :
    (∀ c ∈ gridCells fun _ _ => (0, 0, 0), ValidColor c) ∧
    (∀ cfg ∈ [ColorConfig.mk "A" 0 0 0 2304], ValidCfg cfg) ∧
    X_SIZE * Y_SIZE ≤ totalStock [ColorConfig.mk "A" 0 0 0 2304] ∧
    (∃ outs final,
      quantize (gridCells fun _ _ => (0, 0, 0)) [ColorConfig.mk "A" 0 0 0 2304] =
        Except.ok (outs, final) ∧
      outs.length = X_SIZE * Y_SIZE ∧
      ∀ x y, x < X_SIZE → y < Y_SIZE →
        outs.countP (fun a => a.x == x && a.y == y) = 1) := by
  have hv : ∀ c ∈ gridCells fun _ _ => (0, 0, 0), ValidColor c :=
    gridCells_valid _ fun x y => ⟨by decide, by decide, by decide⟩
  have hvc : ∀ cfg ∈ [ColorConfig.mk "A" 0 0 0 2304], ValidCfg cfg := by decide
  have hs : X_SIZE * Y_SIZE ≤ totalStock [ColorConfig.mk "A" 0 0 0 2304] := by decide
  exact ⟨hv, hvc, hs,
    C1_quantize_complete _ _ _ (List.Perm.refl _) hv hvc hs⟩

/-- C2 (corrected): the nearest-available query never returns an entry
with zero remaining stock, and the returned entry minimizes the
`f32`-computed luma-weighted squared distance (`dist`, the bit-exact
value the source computes) among all eligible entries.  The claim's
exact-arithmetic reading of the formula is refuted by
`C2_counterexample`: `f32` rounding can reverse the exact ordering. -/
theorem C2_nearest_available (cfgs : List ColorConfig) (orig : Color) (i : Nat)
    (h : calculate_closest_color cfgs orig = some i) :
    ∃ hi : i < cfgs.length,
      (cfgs.get ⟨i, hi⟩).count ≠ 0 ∧
      ∀ j, ∀ hj : j < cfgs.length, (cfgs.get ⟨j, hj⟩).count ≠ 0 →
        dist (cfgs.get ⟨i, hi⟩) orig ≤ dist (cfgs.get ⟨j, hj⟩) orig := by
  obtain ⟨hi, helig⟩ := ccc_some_elig cfgs orig i h
  exact ⟨hi, helig, fun j hj hjelig => ccc_some_min cfgs orig i h hi j hj hjelig⟩

/-- Counterexample to C2 as stated: at sample `(0, 0, 0)` with the palette
`[(51,63,80), (136,9,5)]`, both entries eligible, the program returns
index 0, yet index 1 strictly minimizes the specification's exact
distance formula — the `f32` rounding of the source reverses the exact
comparison. -/
theorem C2_counterexample :
    calculate_closest_color
        [ColorConfig.mk "P" 51 63 80 1, ColorConfig.mk "Q" 136 9 5 1]
        (Color.mk 0 0 0 0 0) = some 0 ∧
    (ColorConfig.mk "Q" 136 9 5 1).count ≠ 0 ∧
    specDist (ColorConfig.mk "Q" 136 9 5 1) (Color.mk 0 0 0 0 0) <
      specDist (ColorConfig.mk "P" 51 63 80 1) (Color.mk 0 0 0 0 0) := by
  refine ⟨by decide, by decide, ?_⟩
  norm_num [specDist]

/-- Witness for the amended C2: a zero-stock entry closer than every other
entry is skipped, and the nearest eligible entry (index 1) is returned. -/
theorem C2_witness :
    calculate_closest_color
        [ColorConfig.mk "Z" 5 5 5 0, ColorConfig.mk "A" 10 10 10 2,
          ColorConfig.mk "B" 200 200 200 1] (Color.mk 0 0 0 0 0) = some 1 ∧
    (∃ hi : 1 < ([ColorConfig.mk "Z" 5 5 5 0, ColorConfig.mk "A" 10 10 10 2,
          ColorConfig.mk "B" 200 200 200 1] : List ColorConfig).length,
      (([ColorConfig.mk "Z" 5 5 5 0, ColorConfig.mk "A" 10 10 10 2,
          ColorConfig.mk "B" 200 200 200 1] : List ColorConfig).get ⟨1, hi⟩).count ≠ 0 ∧
      ∀ j, ∀ hj : j < ([ColorConfig.mk "Z" 5 5 5 0, ColorConfig.mk "A" 10 10 10 2,
          ColorConfig.mk "B" 200 200 200 1] : List ColorConfig).length,
        (([ColorConfig.mk "Z" 5 5 5 0, ColorConfig.mk "A" 10 10 10 2,
          ColorConfig.mk "B" 200 200 200 1] : List ColorConfig).get ⟨j, hj⟩).count ≠ 0 →
        dist (([ColorConfig.mk "Z" 5 5 5 0, ColorConfig.mk "A" 10 10 10 2,
          ColorConfig.mk "B" 200 200 200 1] : List ColorConfig).get ⟨1, hi⟩)
            (Color.mk 0 0 0 0 0) ≤
          dist (([ColorConfig.mk "Z" 5 5 5 0, ColorConfig.mk "A" 10 10 10 2,
            ColorConfig.mk "B" 200 200 200 1] : List ColorConfig).get ⟨j, hj⟩)
            (Color.mk 0 0 0 0 0)) :=
  ⟨by decide, C2_nearest_available _ _ _ (by decide)⟩

/-- C3 (corrected): ties in the `f32`-computed distance keep the
first-seen entry — whenever an eligible entry `j` has exactly the
`f32`-computed distance of the returned entry `i`, the returned entry
appears no later (`i ≤ j`), independent of any RNG.  The claim's reading
— ties in the exact formula — is refuted by `C3_counterexample`: `f32`
rounding can split an exact tie and make the later entry win. -/
theorem C3_tie_break (cfgs : List ColorConfig) (orig : Color) (i : Nat)
    (h : calculate_closest_color cfgs orig = some i)
    (hi : i < cfgs.length) (j : Nat) (hj : j < cfgs.length)
    (hjelig : (cfgs.get ⟨j, hj⟩).count ≠ 0)
    (htie : dist (cfgs.get ⟨j, hj⟩) orig = dist (cfgs.get ⟨i, hi⟩) orig) :
    i ≤ j :=
  ccc_some_first cfgs orig i h hi j hj hjelig htie

/-- Counterexample to C3 as stated: at sample `(0, 0, 0)` the palette
entries `(59,0,0)` and `(0,30,0)` are both eligible and have exactly
identical specification distances (`(0.3·59)² = (0.59·30)² = 313.29`),
yet the program returns index 1, the later entry: the two `f32`
roundings differ and the strict `<` update fires on the second entry. -/
theorem C3_counterexample :
    specDist (ColorConfig.mk "P" 59 0 0 1) (Color.mk 0 0 0 0 0) =
      specDist (ColorConfig.mk "Q" 0 30 0 1) (Color.mk 0 0 0 0 0) ∧
    (ColorConfig.mk "P" 59 0 0 1).count ≠ 0 ∧
    calculate_closest_color
        [ColorConfig.mk "P" 59 0 0 1, ColorConfig.mk "Q" 0 30 0 1]
        (Color.mk 0 0 0 0 0) = some 1 := by
  refine ⟨?_, by decide, by decide⟩
  norm_num [specDist]

/-- Witness for the amended C3: two entries of identical color tie exactly
in `f32`; the first is returned. -/
theorem C3_witness :
    calculate_closest_color [ColorConfig.mk "P" 7 7 7 3, ColorConfig.mk "Q" 7 7 7 5]
        (Color.mk 0 0 0 0 0) = some 0 ∧ (0 : Nat) ≤ 1 :=
  ⟨by decide,
    C3_tie_break [ColorConfig.mk "P" 7 7 7 3, ColorConfig.mk "Q" 7 7 7 5]
      (Color.mk 0 0 0 0 0) 0 (by decide) (by decide) 1 (by decide) (by decide)
      (by decide)⟩

/-- C4: with total initial stock strictly below `W*H`, the run fails with
`InventoryExhausted` for every traversal permutation (the error carries no
partial assignment output, the run aborts); with all-zero stock the very
first cell's query already fails. -/
theorem C4_exhaustion (src : Nat → Nat → Nat × Nat × Nat) (cells : List Color)
    (cfgs : List ColorConfig)
    (hperm : cells.Perm (gridCells src))
    (hstock : totalStock cfgs < X_SIZE * Y_SIZE) :
    quantize cells cfgs = Except.error QErr.exhausted ∧
      ((∀ cfg ∈ cfgs, cfg.count = 0) →
        ∀ c rest, cells = c :: rest → calculate_closest_color cfgs c = none) := by
  constructor
  · apply quantize_exhausted_of_stock_lt
    rw [hperm.length_eq, gridCells_length]
    exact hstock
  · intro hzero c rest _
    exact ccc_none_of_all_zero cfgs c hzero

/-- Witness for C4: empty inventory against the constant black grid. -/
theorem C4_witness :
    totalStock [] < X_SIZE * Y_SIZE ∧
    (quantize (gridCells fun _ _ => (0, 0, 0)) [] = Except.error QErr.exhausted ∧
      ((∀ cfg ∈ ([] : List ColorConfig), cfg.count = 0) →
        ∀ c rest, gridCells (fun _ _ => (0, 0, 0)) = c :: rest →
          calculate_closest_color [] c = none)) :=
  ⟨by decide, C4_exhaustion _ _ _ (List.Perm.refl _) (by decide)⟩

/-- C5: over every run, the per-entry differences `initial.remaining -
final.remaining` sum to the number of cells assigned; an inventory of total
stock exactly `W*H` succeeds with every entry's remaining equal to `0`. -/
theorem C5_stock_conservation :
    (∀ (cells : List Color) (cfgs : List ColorConfig) (outs : List Color)
        (final : List ColorConfig),
      quantize cells cfgs = Except.ok (outs, final) →
      final.length = cfgs.length ∧
      ((cfgs.zip final).map fun p => p.1.count - p.2.count).sum = outs.length) ∧
    (∀ (src : Nat → Nat → Nat × Nat × Nat) (cells : List Color)
        (cfgs : List ColorConfig),
      cells.Perm (gridCells src) →
      (∀ c ∈ cells, ValidColor c) → (∀ cfg ∈ cfgs, ValidCfg cfg) →
      totalStock cfgs = X_SIZE * Y_SIZE →
      ∃ outs final, quantize cells cfgs = Except.ok (outs, final) ∧
        ∀ cfg ∈ final, cfg.count = 0) := by
  constructor
  · intro cells cfgs outs final hok
    have hf2 := quantize_ok_forall2 cells cfgs outs final hok
    have hzip := zip_sub_sum cfgs final hf2
    have htot := quantize_ok_total cells cfgs outs final hok
    exact ⟨hf2.length_eq.symm, by omega⟩
  · intro src cells cfgs hperm hvalid hvcfg hstock
    have hlen : cells.length = X_SIZE * Y_SIZE := by
      rw [hperm.length_eq, gridCells_length]
    obtain ⟨outs, final, hok⟩ := quantize_isOk cells cfgs hvalid hvcfg (by omega)
    have htot := quantize_ok_total cells cfgs outs final hok
    have hlenouts : outs.length = cells.length := by
      have := congrArg List.length (quantize_ok_map_coords cells cfgs outs final hok)
      rwa [List.length_map, List.length_map] at this
    have hfin : totalStock final = 0 := by omega
    refine ⟨outs, final, hok, ?_⟩
    intro cfg hmem
    have := List.sum_eq_zero_iff.1 hfin
    exact this cfg.count (List.mem_map.2 ⟨cfg, hmem, rfl⟩)

/-- Witness for C5: a one-cell run consuming the single unit of stock, and
the constant black grid against stock exactly `48 * 48`. -/
theorem C5_witness :
    (quantize [Color.mk 0 0 0 0 0] [ColorConfig.mk "A" 0 0 0 1] =
        Except.ok ([Color.mk 0 0 0 0 0], [ColorConfig.mk "A" 0 0 0 0]) ∧
      ([ColorConfig.mk "A" 0 0 0 0] : List ColorConfig).length =
        ([ColorConfig.mk "A" 0 0 0 1] : List ColorConfig).length ∧
      ((([ColorConfig.mk "A" 0 0 0 1] : List ColorConfig).zip
          [ColorConfig.mk "A" 0 0 0 0]).map fun p => p.1.count - p.2.count).sum =
        ([Color.mk 0 0 0 0 0] : List Color).length) ∧
    (totalStock [ColorConfig.mk "A" 0 0 0 2304] = X_SIZE * Y_SIZE ∧
      ∃ outs final,
        quantize (gridCells fun _ _ => (0, 0, 0)) [ColorConfig.mk "A" 0 0 0 2304] =
          Except.ok (outs, final) ∧
        ∀ cfg ∈ final, cfg.count = 0) := by
  have hv : ∀ c ∈ gridCells fun _ _ => (0, 0, 0), ValidColor c :=
    gridCells_valid _ fun x y => ⟨by decide, by decide, by decide⟩
  refine ⟨⟨by decide, ?_⟩, by decide, ?_⟩
  · exact C5_stock_conservation.1 [Color.mk 0 0 0 0 0] [ColorConfig.mk "A" 0 0 0 1]
      [Color.mk 0 0 0 0 0] [ColorConfig.mk "A" 0 0 0 0] (by decide)
  · exact C5_stock_conservation.2 _ _ _ (List.Perm.refl _) hv (by decide) (by decide)

/-- C6: no entry's remaining count ever goes negative — `decrement` is only
reached on an entry the query just returned, which always has positive
stock, so the `u64` subtraction cannot underflow and the fatal underflow
branch is unreachable on every input. -/
theorem C6_no_underflow :
    (∀ (cfgs : List ColorConfig) (orig : Color) (i : Nat),
      calculate_closest_color cfgs orig = some i →
      ∃ hi : i < cfgs.length,
        (cfgs.get ⟨i, hi⟩).count ≠ 0 ∧
        cfgs[i]? = some (cfgs.get ⟨i, hi⟩) ∧
        (cfgs.get ⟨i, hi⟩).count - 1 + 1 = (cfgs.get ⟨i, hi⟩).count) ∧
    (∀ (cells : List Color) (cfgs : List ColorConfig),
      quantize cells cfgs ≠ Except.error QErr.underflow) := by
  constructor
  · intro cfgs orig i h
    obtain ⟨hi, helig⟩ := ccc_some_elig cfgs orig i h
    exact ⟨hi, helig, List.getElem?_eq_getElem hi, by omega⟩
  · exact quantize_ne_underflow

/-- Witness for C6: a concrete successful query and a concrete run. -/
theorem C6_witness :
    (calculate_closest_color [ColorConfig.mk "A" 1 2 3 5] (Color.mk 0 0 0 0 0) =
        some 0 ∧
      ∃ hi : 0 < ([ColorConfig.mk "A" 1 2 3 5] : List ColorConfig).length,
        (([ColorConfig.mk "A" 1 2 3 5] : List ColorConfig).get ⟨0, hi⟩).count ≠ 0 ∧
        ([ColorConfig.mk "A" 1 2 3 5] : List ColorConfig)[0]? =
          some (([ColorConfig.mk "A" 1 2 3 5] : List ColorConfig).get ⟨0, hi⟩) ∧
        (([ColorConfig.mk "A" 1 2 3 5] : List ColorConfig).get ⟨0, hi⟩).count - 1 + 1 =
          (([ColorConfig.mk "A" 1 2 3 5] : List ColorConfig).get ⟨0, hi⟩).count) ∧
    quantize [Color.mk 9 9 9 0 0] [] ≠ Except.error QErr.underflow :=
  ⟨⟨by decide, C6_no_underflow.1 [ColorConfig.mk "A" 1 2 3 5] (Color.mk 0 0 0 0 0) 0
      (by decide)⟩, C6_no_underflow.2 _ _⟩

/-- C7: the layout sort orders any assignment sequence by `y` ascending then
`x` ascending (and permutes it), and it is idempotent:
`SortLayout (SortLayout a) = SortLayout a`. -/
theorem C7_sort_idempotent (a : List Color) :
    (sortColors a).Perm a ∧
    List.Pairwise colorLeP (sortColors a) ∧
    sortColors (sortColors a) = sortColors a :=
  ⟨sortColors_perm a, sortColors_pairwise a,
    sortColors_of_pairwise _ (sortColors_pairwise a)⟩

/-- C9 (divergence exhibit): the pipeline's output genuinely depends on the
traversal permutation that the source draws from the unseeded, thread-local
`thread_rng()` (line 129 of `main.rs`, no seed or generator parameter), so
two runs on identical inputs need not coincide: the same grid and inventory
under two draws yield different outputs. -/
theorem C9_output_depends_on_shuffle :
    modelCore [Color.mk 0 0 0 0 0, Color.mk 0 0 0 1 0]
        [ColorConfig.mk "A" 0 0 0 1, ColorConfig.mk "B" 255 255 255 2] ≠
      modelCore [Color.mk 0 0 0 1 0, Color.mk 0 0 0 0 0]
        [ColorConfig.mk "A" 0 0 0 1, ColorConfig.mk "B" 255 255 255 2] := by
  decide

/-- C8 (spec-modelled): applied to a complete assignment set (one chosen
palette entry per cell, entries tracked by identity so colliding display
names — permitted by the spec — are disambiguated), `summarize` produces a
usage mapping whose total is `W*H`; the report has one
`"<name> - <count> pieces"` line per palette color actually used,
zero-usage colors contribute no line, and the report ends with
`"Total Pieces: <total>"`. -/
theorem C8_summarize (cfgs : List ColorConfig) (chosen : List Nat)
    (hmem : ∀ k ∈ chosen, k < cfgs.length)
    (hlen : chosen.length = X_SIZE * Y_SIZE) :
    usageTotal cfgs chosen = X_SIZE * Y_SIZE ∧
    (∀ p ∈ usageMapping cfgs chosen, p.2 ≠ 0 →
      (p.1 ++ " - " ++ toString p.2 ++ " pieces") ∈ reportLines cfgs chosen) ∧
    (reportLines cfgs chosen).length =
      ((usageMapping cfgs chosen).filter fun p => p.2 != 0).length + 1 ∧
    (reportLines cfgs chosen).getLast? =
      some ("Total Pieces: " ++ toString (X_SIZE * Y_SIZE)) := by
  have htot : usageTotal cfgs chosen = X_SIZE * Y_SIZE := by
    rw [usageTotal_eq cfgs chosen hmem, hlen]
  refine ⟨htot, ?_, ?_, ?_⟩
  · intro p hp hne
    unfold reportLines
    refine List.mem_append_left _ ?_
    refine List.mem_map.2 ⟨p, ?_, rfl⟩
    refine List.mem_filter.2 ⟨hp, ?_⟩
    simpa using hne
  · unfold reportLines
    rw [List.length_append, List.length_map]
    rfl
  · unfold reportLines
    rw [List.getLast?_concat, htot]

/-- Witness for C8 at a palette with two entries sharing the display name
"A" (the colliding-name case the spec permits): half the cells use each
entry; the total is still `48 * 48`. -/
theorem C8_witness :
    ((∀ k ∈ List.replicate 1152 0 ++ List.replicate 1152 1,
        k < ([ColorConfig.mk "A" 0 0 0 1152, ColorConfig.mk "A" 9 9 9 1152] :
          List ColorConfig).length) ∧
      (List.replicate 1152 0 ++ List.replicate 1152 1).length =
        X_SIZE * Y_SIZE) ∧
    usageTotal [ColorConfig.mk "A" 0 0 0 1152, ColorConfig.mk "A" 9 9 9 1152]
        (List.replicate 1152 0 ++ List.replicate 1152 1) = X_SIZE * Y_SIZE ∧
    (reportLines [ColorConfig.mk "A" 0 0 0 1152, ColorConfig.mk "A" 9 9 9 1152]
        (List.replicate 1152 0 ++ List.replicate 1152 1)).getLast? =
      some ("Total Pieces: " ++ toString (X_SIZE * Y_SIZE)) := by
  have hmem : ∀ k ∈ List.replicate 1152 0 ++ List.replicate 1152 1,
      k < ([ColorConfig.mk "A" 0 0 0 1152, ColorConfig.mk "A" 9 9 9 1152] :
        List ColorConfig).length := by
    intro k hk
    rcases List.mem_append.1 hk with hk0 | hk1
    · rw [List.eq_of_mem_replicate hk0]
      decide
    · rw [List.eq_of_mem_replicate hk1]
      decide
  have hlen : (List.replicate 1152 0 ++ List.replicate 1152 1).length =
      X_SIZE * Y_SIZE := by
    rw [List.length_append, List.length_replicate, List.length_replicate]
    decide
  have h := C8_summarize _ _ hmem hlen
  exact ⟨⟨hmem, hlen⟩, h.1, h.2.2.2⟩

/-- C10: after model construction (quantize then sort), entry `i` of the
pixel list has `x = i % X_SIZE` and `y = i / X_SIZE`; equivalently, index
`y * X_SIZE + x` retrieves exactly the cell with coordinates `(x, y)`, as
the mouse inspector's lookup assumes. -/
theorem C10_pixels_row_major
    (src : Nat → Nat → Nat × Nat × Nat) (cells : List Color)
    (cfgs : List ColorConfig)
    (hperm : cells.Perm (gridCells src))
    (hvalid : ∀ c ∈ cells, ValidColor c)
    (hvcfg : ∀ cfg ∈ cfgs, ValidCfg cfg)
    (hstock : X_SIZE * Y_SIZE ≤ totalStock cfgs) :
    ∃ outs final, quantize cells cfgs = Except.ok (outs, final) ∧
      (sortColors outs).length = X_SIZE * Y_SIZE ∧
      (∀ i, ∀ hi : i < (sortColors outs).length,
        ((sortColors outs).get ⟨i, hi⟩).x = i % X_SIZE ∧
        ((sortColors outs).get ⟨i, hi⟩).y = i / X_SIZE) ∧
      (∀ x y, x < X_SIZE → y < Y_SIZE →
        ∀ hxy : y * X_SIZE + x < (sortColors outs).length,
          ((sortColors outs).get ⟨y * X_SIZE + x, hxy⟩).x = x ∧
          ((sortColors outs).get ⟨y * X_SIZE + x, hxy⟩).y = y) := by
  have hlen : cells.length = X_SIZE * Y_SIZE := by
    rw [hperm.length_eq, gridCells_length]
  obtain ⟨outs, final, hok⟩ := quantize_isOk cells cfgs hvalid hvcfg (by omega)
  have hcoords := quantize_ok_map_coords cells cfgs outs final hok
  have hperm2 : ((sortColors outs).map coords).Perm rowMajorCoords := by
    have hp := (sortColors_perm outs).map coords
    rw [hcoords] at hp
    have hq := hperm.map coords
    rw [gridCells_coords_rowMajor src] at hq
    exact hp.trans hq
  have hsorted : List.Pairwise coordLe ((sortColors outs).map coords) := by
    refine List.Pairwise.map _ ?_ (sortColors_pairwise outs)
    intro a b hab
    exact hab
  have heq : (sortColors outs).map coords = rowMajorCoords :=
    List.eq_of_perm_of_sorted hperm2 hsorted rowMajorCoords_pairwise
  have hlen2 : (sortColors outs).length = X_SIZE * Y_SIZE := by
    have := congrArg List.length heq
    rwa [List.length_map, rowMajorCoords_length] at this
  have hget : ∀ i, ∀ hi : i < (sortColors outs).length,
      ((sortColors outs).get ⟨i, hi⟩).x = i % X_SIZE ∧
      ((sortColors outs).get ⟨i, hi⟩).y = i / X_SIZE := by
    intro i hi
    have h3 : ((sortColors outs).map coords)[i]? = some (i % X_SIZE, i / X_SIZE) := by
      rw [heq]
      exact rowMajorCoords_getElemOpt i (by omega)
    rw [List.getElem?_map, List.getElem?_eq_getElem hi] at h3
    injection h3 with h3
    exact ⟨congrArg Prod.fst h3, congrArg Prod.snd h3⟩
  refine ⟨outs, final, hok, hlen2, hget, ?_⟩
  intro x y hx hy hxy
  have h := hget (y * X_SIZE + x) hxy
  have hmod : (y * X_SIZE + x) % X_SIZE = x := by
    simp only [X_SIZE] at hx ⊢
    omega
  have hdiv : (y * X_SIZE + x) / X_SIZE = y := by
    simp only [X_SIZE] at hx ⊢
    omega
  rw [hmod, hdiv] at h
  exact h

/-- Witness for C10: the constant black grid with a single entry of stock
`48 * 48`. -/
theorem C10_witness :
    (∀ c ∈ gridCells fun _ _ => (0, 0, 0), ValidColor c) ∧
    (∀ cfg ∈ [ColorConfig.mk "A" 0 0 0 2304], ValidCfg cfg) ∧
    X_SIZE * Y_SIZE ≤ totalStock [ColorConfig.mk "A" 0 0 0 2304] ∧
    (∃ outs final,
      quantize (gridCells fun _ _ => (0, 0, 0)) [ColorConfig.mk "A" 0 0 0 2304] =
        Except.ok (outs, final) ∧
      (sortColors outs).length = X_SIZE * Y_SIZE ∧
      (∀ i, ∀ hi : i < (sortColors outs).length,
        ((sortColors outs).get ⟨i, hi⟩).x = i % X_SIZE ∧
        ((sortColors outs).get ⟨i, hi⟩).y = i / X_SIZE) ∧
      (∀ x y, x < X_SIZE → y < Y_SIZE →
        ∀ hxy : y * X_SIZE + x < (sortColors outs).length,
          ((sortColors outs).get ⟨y * X_SIZE + x, hxy⟩).x = x ∧
          ((sortColors outs).get ⟨y * X_SIZE + x, hxy⟩).y = y)) := by
  have hv : ∀ c ∈ gridCells fun _ _ => (0, 0, 0), ValidColor c :=
    gridCells_valid _ fun x y => ⟨by decide, by decide, by decide⟩
  have hvc : ∀ cfg ∈ [ColorConfig.mk "A" 0 0 0 2304], ValidCfg cfg := by decide
  have hs : X_SIZE * Y_SIZE ≤ totalStock [ColorConfig.mk "A" 0 0 0 2304] := by decide
  exact ⟨hv, hvc, hs,
    C10_pixels_row_major _ _ _ (List.Perm.refl _) hv hvc hs⟩

end BlockMosaic
